import Mathlib

/-! Shallow embedding of the search core of the `egui_json_tree` repository
(`src/search.rs`), together with the tree data model that the search
traversal consumes. Machine strings are modelled as `List Char`; the
caller-supplied `HashSet<Id>` accumulators are modelled as `Finset α` over
an arbitrary identifier type `α` with decidable equality, and the
caller-supplied `make_persistent_id` closure as a function
`List Segment → α`. -/

namespace EguiJsonTree

/-- Modelled from the spec: a path segment (the repository's
`JsonPointerSegment`, whose source file is not in scope) is either an
object key or a non-negative array index. -/
inductive Segment : Type where
  | key : List Char → Segment
  | index : Nat → Segment
deriving DecidableEq

/-- Modelled from the spec: the display form of a segment used for matching
("paired with a display form usable for matching") — the key text itself,
or the decimal rendering of the array index. -/
def Segment.display : Segment → List Char
  | .key s => s
  | .index n => (Nat.repr n).toList

/-- Modelled from the spec: the value-kind tag carried by a Base leaf.
The search traversal never inspects it. -/
inductive BaseValueType : Type where
  | null
  | bool
  | number
  | str
deriving DecidableEq

/-- Modelled from the spec: the tag distinguishing object semantics from
array semantics on an Expandable node (the repository's `ExpandableType`). -/
inductive ExpandableType : Type where
  | array
  | object
deriving DecidableEq

mutual
/-- Modelled from the spec: the abstract tree node shape consumed by the
search (the repository's `JsonTreeValue`): either a Base leaf carrying a
display string and a value-kind tag, or an Expandable node carrying an
ordered sequence of (segment, child) entries plus an object/array tag.
The raw leaf value of a Base node is omitted: the traversal only ever
reads the display string. -/
inductive JsonTreeValue : Type where
  | base : List Char → BaseValueType → JsonTreeValue
  | expandable : Entries → ExpandableType → JsonTreeValue

/-- The ordered child entries of an Expandable node, as an inductive list
so that the traversal can recurse structurally. -/
inductive Entries : Type where
  | nil : Entries
  | cons : Segment → JsonTreeValue → Entries → Entries
end

deriving instance DecidableEq for JsonTreeValue, Entries

/-- View the child entries as an ordinary list of pairs. -/
def Entries.toList : Entries → List (Segment × JsonTreeValue)
  | .nil => []
  | .cons p v r => (p, v) :: r.toList

/-- Embeds `is_expandable` from the tree-conversion interface: whether a
node is a container (Expandable) rather than a leaf. -/
def JsonTreeValue.is_expandable : JsonTreeValue → Bool
  | .base _ _ => false
  | .expandable _ _ => true

/-- Embeds `SearchTerm` (search.rs line 11): a wrapper around the stored,
already-lowercased term string. -/
structure SearchTerm : Type where
  term : List Char
deriving DecidableEq

/-- ASCII-only lowercasing, character by character. `Char.toLower` maps
exactly the range `A`..`Z` to `a`..`z` and leaves every other character
unchanged, which is the behaviour of Rust's `to_ascii_lowercase`. -/
def toAsciiLowercase (s : List Char) : List Char := s.map Char.toLower

/-- ASCII-only uppercasing, character by character, mirroring Rust's
`to_ascii_uppercase` (used only to state the case-insensitivity claim). -/
def toAsciiUppercase (s : List Char) : List Char := s.map Char.toUpper

/-- Embeds `SearchTerm::is_valid` (search.rs lines 18-20). -/
def SearchTerm.is_valid (s : List Char) : Bool := !s.isEmpty

/-- Embeds `SearchTerm::parse` (search.rs lines 14-16): `None` on an
invalid (empty) string, otherwise the ASCII-lowercased term. -/
def SearchTerm.parse (s : List Char) : Option SearchTerm :=
  if SearchTerm.is_valid s then some ⟨toAsciiLowercase s⟩ else none

/-- Whether `needle` occurs at the very start of `hay`. -/
def starts_with : List Char → List Char → Bool
  | [], _ => true
  | _ :: _, [] => false
  | c :: cs, d :: ds => c == d && starts_with cs ds

/-- Whether `needle` occurs contiguously anywhere inside the second list:
Rust's `str::contains` for a string pattern. -/
def is_substring (needle : List Char) : List Char → Bool
  | [] => needle.isEmpty
  | d :: ds => starts_with needle (d :: ds) || is_substring needle ds

/-- Embeds `SearchTerm::matches` (search.rs lines 60-62): render the other
value to its display string (already done by our callers), ASCII-lowercase
it, and test substring containment of the stored term. -/
def SearchTerm.matches (t : SearchTerm) (other : List Char) : Bool :=
  is_substring t.term (toAsciiLowercase other)

/-- Embeds `update_matches` (search.rs lines 106-114): for every `i` in
`0..path_segments.len()` (exclusive upper bound), insert the persistent id
of the length-`i` prefix `path_segments[0..i]` into the accumulator. -/
def update_matches {α : Type} [DecidableEq α] (path_segments : List Segment)
    (make_persistent_id : List Segment → α) (ids : Finset α) : Finset α :=
  (List.range path_segments.length).foldl
    (fun s i => insert (make_persistent_id (path_segments.take i)) s) ids

mutual
/-- Embeds `search_impl` (search.rs lines 65-104). The pair `st` carries
the two mutable accumulators `(search_match_path_ids, reset_path_ids)`. -/
def search_impl {α : Type} [DecidableEq α] (value : JsonTreeValue)
    (search_term : SearchTerm) (path_segments : List Segment)
    (make_persistent_id : List Segment → α) (st : Finset α × Finset α) :
    Finset α × Finset α :=
  match value with
  | .base display_value _ =>
      if search_term.matches display_value then
        (update_matches path_segments make_persistent_id st.1, st.2)
      else st
  | .expandable entries ty =>
      search_entries entries ty search_term path_segments make_persistent_id st

/-- The `for (property, val) in &entries` loop body of `search_impl`
(search.rs lines 80-101): push the segment, record a reset id for an
expandable child, test the key only for object containers, recurse, pop. -/
def search_entries {α : Type} [DecidableEq α] (entries : Entries)
    (ty : ExpandableType) (search_term : SearchTerm)
    (path_segments : List Segment) (make_persistent_id : List Segment → α)
    (st : Finset α × Finset α) : Finset α × Finset α :=
  match entries with
  | .nil => st
  | .cons property val rest =>
      let path2 := path_segments ++ [property]
      let st1 :=
        if val.is_expandable then (st.1, insert (make_persistent_id path2) st.2)
        else st
      let st2 :=
        if ty = ExpandableType.object ∧ search_term.matches property.display then
          (update_matches path2 make_persistent_id st1.1, st1.2)
        else st1
      let st3 := search_impl val search_term path2 make_persistent_id st2
      search_entries rest ty search_term path_segments make_persistent_id st3
end

/-- Embeds `SearchTerm::find_matching_paths_in` (search.rs lines 34-58):
run the traversal from an empty path with an empty match accumulator, then
apply the tie-break — with `abbreviate_root` false and exactly one
accumulated match id, clear the match set. Returns the pair
(match ids, final reset ids). -/
def find_matching_paths_in {α : Type} [DecidableEq α] (search_term : SearchTerm)
    (value : JsonTreeValue) (abbreviate_root : Bool)
    (make_persistent_id : List Segment → α) (reset_path_ids : Finset α) :
    Finset α × Finset α :=
  let st := search_impl value search_term [] make_persistent_id (∅, reset_path_ids)
  if abbreviate_root = false ∧ st.1.card = 1 then (∅, st.2) else st

/-! ### Single-accumulator views of the traversal

`search_impl` threads both mutable sets through the recursion at once.
The two accumulators never interact: the following pair of functions
computes each component separately, and `search_impl_eq_split` proves the
pair-threaded embedding equal to the pair of the two views. All further
reasoning (and all concrete evaluation) goes through these views. -/

mutual
/-- The `search_match_path_ids` component of `search_impl`: the match-id
accumulator after traversing `value` at `path_segments`. -/
def search_match {α : Type} [DecidableEq α] (value : JsonTreeValue)
    (search_term : SearchTerm) (path_segments : List Segment)
    (make_persistent_id : List Segment → α) (acc : Finset α) : Finset α :=
  match value with
  | .base display_value _ =>
      if search_term.matches display_value then
        update_matches path_segments make_persistent_id acc
      else acc
  | .expandable entries ty =>
      search_match_entries entries ty search_term path_segments make_persistent_id acc

/-- The match-id accumulator after the entry loop of `search_impl`. -/
def search_match_entries {α : Type} [DecidableEq α] (entries : Entries)
    (ty : ExpandableType) (search_term : SearchTerm) (path_segments : List Segment)
    (make_persistent_id : List Segment → α) (acc : Finset α) : Finset α :=
  match entries with
  | .nil => acc
  | .cons property val rest =>
      let path2 := path_segments ++ [property]
      let acc1 :=
        if ty = ExpandableType.object ∧ search_term.matches property.display then
          update_matches path2 make_persistent_id acc
        else acc
      let acc2 := search_match val search_term path2 make_persistent_id acc1
      search_match_entries rest ty search_term path_segments make_persistent_id acc2
end

mutual
/-- The `reset_path_ids` component of `search_impl`: the reset-id
accumulator after traversing `value` at `path_segments`. It does not
depend on the search term at all. -/
def search_reset {α : Type} [DecidableEq α] (value : JsonTreeValue)
    (path_segments : List Segment) (make_persistent_id : List Segment → α)
    (acc : Finset α) : Finset α :=
  match value with
  | .base _ _ => acc
  | .expandable entries _ =>
      search_reset_entries entries path_segments make_persistent_id acc

/-- The reset-id accumulator after the entry loop of `search_impl`. -/
def search_reset_entries {α : Type} [DecidableEq α] (entries : Entries)
    (path_segments : List Segment) (make_persistent_id : List Segment → α)
    (acc : Finset α) : Finset α :=
  match entries with
  | .nil => acc
  | .cons property val rest =>
      let path2 := path_segments ++ [property]
      let acc1 :=
        if val.is_expandable then insert (make_persistent_id path2) acc else acc
      let acc2 := search_reset val path2 make_persistent_id acc1
      search_reset_entries rest path_segments make_persistent_id acc2
end

/-- A node of the tree at relative path `P` registers a match during the
traversal: either the tree itself is a Base leaf whose display value
matches (`P = []`), or `P` addresses an object key whose text matches, or
a child subtree contains such a node. -/
inductive MatchesAt (t : SearchTerm) : JsonTreeValue → List Segment → Prop where
  | base_match {display ty} (h : t.matches display = true) :
      MatchesAt t (.base display ty) []
  | key_match {entries prop child} (hmem : (prop, child) ∈ Entries.toList entries)
      (h : t.matches prop.display = true) :
      MatchesAt t (.expandable entries ExpandableType.object) [prop]
  | child_match {entries ty prop child P} (hmem : (prop, child) ∈ Entries.toList entries)
      (h : MatchesAt t child P) :
      MatchesAt t (.expandable entries ty) (prop :: P)

/-- The node addressed by a path: `HasNodeAt v P w` holds when descending
from `v` along the segments of `P` reaches the node `w`. -/
inductive HasNodeAt : JsonTreeValue → List Segment → JsonTreeValue → Prop where
  | here (v : JsonTreeValue) : HasNodeAt v [] v
  | there {entries ty prop child P w} (hmem : (prop, child) ∈ Entries.toList entries)
      (h : HasNodeAt child P w) :
      HasNodeAt (.expandable entries ty) (prop :: P) w

mutual
/-- All paths, extending the prefix `path_segments`, at which the traversal
inserts a reset id: the full path of every strictly-descendant node that is
itself expandable. -/
def container_paths : JsonTreeValue → List Segment → List (List Segment)
  | .base _ _, _ => []
  | .expandable entries _, path_segments => container_paths_entries entries path_segments

/-- The reset paths contributed by an entry list. -/
def container_paths_entries : Entries → List Segment → List (List Segment)
  | .nil, _ => []
  | .cons property val rest, path_segments =>
      (if val.is_expandable then [path_segments ++ [property]] else []) ++
        (container_paths val (path_segments ++ [property]) ++
          container_paths_entries rest path_segments)
end

mutual
/-- Whether every container in the tree is tagged as an array (no object
containers at all). -/
def only_arrays : JsonTreeValue → Bool
  | .base _ _ => true
  | .expandable entries ExpandableType.array => only_arrays_entries entries
  | .expandable _ ExpandableType.object => false

/-- Whether every container inside an entry list is tagged as an array. -/
def only_arrays_entries : Entries → Bool
  | .nil => true
  | .cons _ v r => only_arrays v && only_arrays_entries r
end

mutual
/-- Follows the spec's words for the array-index exemption ("array indices
are never matched, only object keys"): the same match traversal but with
the key-match test dropped entirely, so that path segments contribute no
matches of their own. -/
def search_ignoring_keys {α : Type} [DecidableEq α] (value : JsonTreeValue)
    (search_term : SearchTerm) (path_segments : List Segment)
    (make_persistent_id : List Segment → α) (acc : Finset α) : Finset α :=
  match value with
  | .base display_value _ =>
      if search_term.matches display_value then
        update_matches path_segments make_persistent_id acc
      else acc
  | .expandable entries _ =>
      search_ignoring_keys_entries entries search_term path_segments make_persistent_id acc

/-- The entry loop of `search_ignoring_keys`. -/
def search_ignoring_keys_entries {α : Type} [DecidableEq α] (entries : Entries)
    (search_term : SearchTerm) (path_segments : List Segment)
    (make_persistent_id : List Segment → α) (acc : Finset α) : Finset α :=
  match entries with
  | .nil => acc
  | .cons property val rest =>
      let acc2 := search_ignoring_keys val search_term (path_segments ++ [property])
        make_persistent_id acc
      search_ignoring_keys_entries rest search_term path_segments make_persistent_id acc2
end

/-- Build an `Entries` sequence from a list of (segment, child) pairs. -/
def entriesOfList : List (Segment × JsonTreeValue) → Entries
  | [] => Entries.nil
  | (p, v) :: r => Entries.cons p v (entriesOfList r)

/-- Build an object node from key/child pairs, in order. -/
def objOf (es : List (Segment × JsonTreeValue)) : JsonTreeValue :=
  JsonTreeValue.expandable (entriesOfList es) ExpandableType.object

/-- Build an array node: children are paired with their index segments. -/
def arrOf (vs : List JsonTreeValue) : JsonTreeValue :=
  JsonTreeValue.expandable
    (entriesOfList (vs.enum.map fun p => (Segment.index p.1, p.2)))
    ExpandableType.array

/-- The object `{"foo": 1, "bar": 2}` from testable property P5. -/
def vFooBar : JsonTreeValue :=
  objOf [(Segment.key ['f', 'o', 'o'], JsonTreeValue.base ['1'] BaseValueType.number),
         (Segment.key ['b', 'a', 'r'], JsonTreeValue.base ['2'] BaseValueType.number)]

/-- The object `{"a": "x", "b": {"c": "x"}}`: the leaf at path `["a"]`
matches the term `"x"`, as does the nested leaf at `["b", "c"]`. -/
def vTwoLeaves : JsonTreeValue :=
  objOf [(Segment.key ['a'], JsonTreeValue.base ['x'] BaseValueType.str),
         (Segment.key ['b'],
          objOf [(Segment.key ['c'], JsonTreeValue.base ['x'] BaseValueType.str)])]

/-- The end-to-end scenario tree
`{"foo": [1, 2, [3]], "bar": {"qux": false, "thud": {"a/b": [4, 5, {"m~n":
"Greetings!"}]}, "grep": 21}, "baz": null}`, with scalar display strings
modelled from the spec (their exact form only matters through containment
of the letter `g`, which holds for `"Greetings!"` and no other display). -/
def vEndToEnd : JsonTreeValue :=
  objOf
    [(Segment.key ['f', 'o', 'o'],
      arrOf [JsonTreeValue.base ['1'] BaseValueType.number,
             JsonTreeValue.base ['2'] BaseValueType.number,
             arrOf [JsonTreeValue.base ['3'] BaseValueType.number]]),
     (Segment.key ['b', 'a', 'r'],
      objOf
        [(Segment.key ['q', 'u', 'x'],
          JsonTreeValue.base ['f', 'a', 'l', 's', 'e'] BaseValueType.bool),
         (Segment.key ['t', 'h', 'u', 'd'],
          objOf
            [(Segment.key ['a', '/', 'b'],
              arrOf [JsonTreeValue.base ['4'] BaseValueType.number,
                     JsonTreeValue.base ['5'] BaseValueType.number,
                     objOf [(Segment.key ['m', '~', 'n'],
                             JsonTreeValue.base
                               ['G', 'r', 'e', 'e', 't', 'i', 'n', 'g', 's', '!']
                               BaseValueType.str)]])]),
         (Segment.key ['g', 'r', 'e', 'p'],
          JsonTreeValue.base ['2', '1'] BaseValueType.number)]),
     (Segment.key ['b', 'a', 'z'],
      JsonTreeValue.base ['n', 'u', 'l', 'l'] BaseValueType.null)]

/-- The five paths whose ids the end-to-end search actually accumulates:
the empty path and the proper ancestors of the two matches (the key
`"grep"` at `["bar","grep"]` and the value `"Greetings!"` at
`["bar","thud","a/b",2,"m~n"]`). -/
def endToEndMatchPaths : Finset (List Segment) :=
  {[],
   [Segment.key ['b', 'a', 'r']],
   [Segment.key ['b', 'a', 'r'], Segment.key ['t', 'h', 'u', 'd']],
   [Segment.key ['b', 'a', 'r'], Segment.key ['t', 'h', 'u', 'd'],
    Segment.key ['a', '/', 'b']],
   [Segment.key ['b', 'a', 'r'], Segment.key ['t', 'h', 'u', 'd'],
    Segment.key ['a', '/', 'b'], Segment.index 2]}

/-- The tree `{"a": [1, 2, {"b": 3}]}` from testable property P6. -/
def vResetDemo : JsonTreeValue :=
  objOf [(Segment.key ['a'],
          arrOf [JsonTreeValue.base ['1'] BaseValueType.number,
                 JsonTreeValue.base ['2'] BaseValueType.number,
                 objOf [(Segment.key ['b'],
                         JsonTreeValue.base ['3'] BaseValueType.number)]])]

/-- The array `["x", "y", "z"]` from testable property P4. -/
def vArrayXYZ : JsonTreeValue :=
  arrOf [JsonTreeValue.base ['x'] BaseValueType.str,
         JsonTreeValue.base ['y'] BaseValueType.str,
         JsonTreeValue.base ['z'] BaseValueType.str]

/-- The array `["x", "y", "z2"]`: the display value at index 2 contains
the digit `2`. -/
def vArrayXYZ2 : JsonTreeValue :=
  arrOf [JsonTreeValue.base ['x'] BaseValueType.str,
         JsonTreeValue.base ['y'] BaseValueType.str,
         JsonTreeValue.base ['z', '2'] BaseValueType.str]

/-- The array `["x", "y", {"k2": null}]`: a nested object key contains the
digit `2`. -/
def vArrayNestedKey : JsonTreeValue :=
  arrOf [JsonTreeValue.base ['x'] BaseValueType.str,
         JsonTreeValue.base ['y'] BaseValueType.str,
         objOf [(Segment.key ['k', '2'],
                 JsonTreeValue.base ['n', 'u', 'l', 'l'] BaseValueType.null)]]

mutual
theorem search_impl_eq_split {α : Type} [DecidableEq α] (value : JsonTreeValue)
    (search_term : SearchTerm) (path_segments : List Segment)
    (make_persistent_id : List Segment → α) (st : Finset α × Finset α) :
    search_impl value search_term path_segments make_persistent_id st =
      (search_match value search_term path_segments make_persistent_id st.1,
       search_reset value path_segments make_persistent_id st.2) := by
  cases value with
  | base d bt =>
      simp only [search_impl, search_match, search_reset]
      by_cases h : search_term.matches d = true
      · rw [if_pos h, if_pos h]
      · rw [if_neg h, if_neg h]
  | expandable es ty =>
      simp only [search_impl, search_match, search_reset]
      exact search_entries_eq_split es ty search_term path_segments make_persistent_id st

theorem search_entries_eq_split {α : Type} [DecidableEq α] (entries : Entries)
    (ty : ExpandableType) (search_term : SearchTerm) (path_segments : List Segment)
    (make_persistent_id : List Segment → α) (st : Finset α × Finset α) :
    search_entries entries ty search_term path_segments make_persistent_id st =
      (search_match_entries entries ty search_term path_segments make_persistent_id st.1,
       search_reset_entries entries path_segments make_persistent_id st.2) := by
  cases entries with
  | nil => simp only [search_entries, search_match_entries, search_reset_entries]
  | cons p v r =>
      simp only [search_entries, search_match_entries, search_reset_entries]
      by_cases h1 : JsonTreeValue.is_expandable v = true <;>
        by_cases h2 : ty = ExpandableType.object ∧
          search_term.matches (Segment.display p) = true <;>
        simp only [h1, h2, if_true, if_false, if_pos, if_neg, not_false_iff,
          Bool.false_eq_true] <;>
        rw [search_impl_eq_split v, search_entries_eq_split r] <;> simp
end

/-- The match-id component returned by `find_matching_paths_in`, via the
single-accumulator view: the traversal result from an empty accumulator,
cleared when `abbreviate_root` is false and it is a singleton. -/
theorem find_matching_paths_in_fst {α : Type} [DecidableEq α] (search_term : SearchTerm)
    (value : JsonTreeValue) (abbreviate_root : Bool)
    (make_persistent_id : List Segment → α) (reset_path_ids : Finset α) :
    (find_matching_paths_in search_term value abbreviate_root make_persistent_id
        reset_path_ids).1 =
      if abbreviate_root = false ∧
          (search_match value search_term [] make_persistent_id (∅ : Finset α)).card = 1 then ∅
      else search_match value search_term [] make_persistent_id ∅ := by
  simp only [find_matching_paths_in, search_impl_eq_split]
  by_cases h : abbreviate_root = false ∧
      (search_match value search_term [] make_persistent_id (∅ : Finset α)).card = 1
  · rw [if_pos h, if_pos h]
  · rw [if_neg h, if_neg h]

/-- The reset-id component returned by `find_matching_paths_in` is the
reset traversal of the tree, untouched by the tie-break. -/
theorem find_matching_paths_in_snd {α : Type} [DecidableEq α] (search_term : SearchTerm)
    (value : JsonTreeValue) (abbreviate_root : Bool)
    (make_persistent_id : List Segment → α) (reset_path_ids : Finset α) :
    (find_matching_paths_in search_term value abbreviate_root make_persistent_id
        reset_path_ids).2 =
      search_reset value [] make_persistent_id reset_path_ids := by
  simp only [find_matching_paths_in, search_impl_eq_split]
  split <;> rfl

theorem mem_foldl_insert {α β : Type} [DecidableEq α] (f : β → α) (l : List β)
    (s : Finset α) (x : α) :
    x ∈ l.foldl (fun acc i => insert (f i) acc) s ↔ x ∈ s ∨ ∃ i ∈ l, x = f i := by
  induction l generalizing s with
  | nil => simp
  | cons a l ih =>
      rw [List.foldl_cons, ih]
      constructor
      · rintro (h | ⟨i, hi, hx⟩)
        · rcases Finset.mem_insert.1 h with h | h
          · exact Or.inr ⟨a, List.mem_cons_self a l, h⟩
          · exact Or.inl h
        · exact Or.inr ⟨i, List.mem_cons_of_mem a hi, hx⟩
      · rintro (h | ⟨i, hi, hx⟩)
        · exact Or.inl (Finset.mem_insert_of_mem h)
        · rcases List.mem_cons.1 hi with rfl | hi
          · exact Or.inl (Finset.mem_insert.2 (Or.inl hx))
          · exact Or.inr ⟨i, hi, hx⟩

/-- Membership in `update_matches`: exactly the old accumulator plus the
ids of the strict prefixes `path[0..i]`, `i < path.length`. -/
theorem mem_update_matches {α : Type} [DecidableEq α] (path_segments : List Segment)
    (make_persistent_id : List Segment → α) (ids : Finset α) (x : α) :
    x ∈ update_matches path_segments make_persistent_id ids ↔
      x ∈ ids ∨ ∃ i, i < path_segments.length ∧
        x = make_persistent_id (path_segments.take i) := by
  simp [update_matches, mem_foldl_insert, List.mem_range]

theorem subset_update_matches {α : Type} [DecidableEq α] (path_segments : List Segment)
    (make_persistent_id : List Segment → α) (ids : Finset α) :
    ids ⊆ update_matches path_segments make_persistent_id ids := fun x hx =>
  (mem_update_matches path_segments make_persistent_id ids x).2 (Or.inl hx)

theorem root_mem_update_matches {α : Type} [DecidableEq α] {path_segments : List Segment}
    (make_persistent_id : List Segment → α) (ids : Finset α)
    (h : path_segments ≠ []) :
    make_persistent_id [] ∈ update_matches path_segments make_persistent_id ids :=
  (mem_update_matches path_segments make_persistent_id ids _).2
    (Or.inr ⟨0, List.length_pos.2 h, by simp⟩)

theorem update_matches_nil {α : Type} [DecidableEq α]
    (make_persistent_id : List Segment → α) (ids : Finset α) :
    update_matches [] make_persistent_id ids = ids := by
  simp [update_matches]

mutual
theorem subset_search_match {α : Type} [DecidableEq α] (value : JsonTreeValue)
    (search_term : SearchTerm) (path_segments : List Segment)
    (make_persistent_id : List Segment → α) (acc : Finset α) :
    acc ⊆ search_match value search_term path_segments make_persistent_id acc := by
  cases value with
  | base d bt =>
      simp only [search_match]
      split
      · exact subset_update_matches path_segments make_persistent_id acc
      · exact Finset.Subset.refl acc
  | expandable es ty =>
      simp only [search_match]
      exact subset_search_match_entries es ty search_term path_segments make_persistent_id acc

theorem subset_search_match_entries {α : Type} [DecidableEq α] (entries : Entries)
    (ty : ExpandableType) (search_term : SearchTerm) (path_segments : List Segment)
    (make_persistent_id : List Segment → α) (acc : Finset α) :
    acc ⊆ search_match_entries entries ty search_term path_segments make_persistent_id acc := by
  cases entries with
  | nil =>
      simp only [search_match_entries]
      exact Finset.Subset.refl acc
  | cons p v r =>
      simp only [search_match_entries]
      have h1 : acc ⊆ (if ty = ExpandableType.object ∧
          search_term.matches (Segment.display p) then
            update_matches (path_segments ++ [p]) make_persistent_id acc
          else acc) := by
        split
        · exact subset_update_matches (path_segments ++ [p]) make_persistent_id acc
        · exact Finset.Subset.refl acc
      exact Finset.Subset.trans h1 (Finset.Subset.trans
        (subset_search_match v search_term (path_segments ++ [p]) make_persistent_id _)
        (subset_search_match_entries r ty search_term path_segments make_persistent_id _))
end


/-- A matching object key inside an entry list contributes the ids of all
strict prefixes of its full path to the final accumulator. -/
theorem key_match_mem_search_match_entries {α : Type} [DecidableEq α] {t : SearchTerm}
    {prop : Segment} {child : JsonTreeValue} (es : Entries)
    (hmem : (prop, child) ∈ Entries.toList es) (hm : t.matches prop.display = true)
    (path_segments : List Segment) (mk : List Segment → α) (acc : Finset α)
    (i : Nat) (hi : i < (path_segments ++ [prop]).length) :
    mk ((path_segments ++ [prop]).take i) ∈
      search_match_entries es ExpandableType.object t path_segments mk acc := by
  cases es with
  | nil => simp [Entries.toList] at hmem
  | cons p v r =>
      simp only [Entries.toList, List.mem_cons] at hmem
      simp only [search_match_entries]
      rcases hmem with heq | hmem
      · injection heq with h1 h2
        subst h1
        subst h2
        simp only [true_and]
        rw [if_pos hm]
        refine subset_search_match_entries r ExpandableType.object t path_segments mk _
          (subset_search_match child t (path_segments ++ [prop]) mk _ ?_)
        exact (mem_update_matches _ mk acc _).2 (Or.inr ⟨i, hi, rfl⟩)
      · exact key_match_mem_search_match_entries r hmem hm path_segments mk _ i hi

/-- If an identifier lands in the match accumulator of a child's subtree
search no matter the accumulator it starts from, it survives into the
result of searching any entry list containing that child. -/
theorem child_mem_search_match_entries {α : Type} [DecidableEq α] {t : SearchTerm}
    {prop : Segment} {child : JsonTreeValue} (es : Entries) (ty : ExpandableType)
    (hmem : (prop, child) ∈ Entries.toList es) (path_segments : List Segment)
    (mk : List Segment → α) (x : α)
    (hx : ∀ acc : Finset α, x ∈ search_match child t (path_segments ++ [prop]) mk acc)
    (acc : Finset α) :
    x ∈ search_match_entries es ty t path_segments mk acc := by
  cases es with
  | nil => simp [Entries.toList] at hmem
  | cons p v r =>
      simp only [Entries.toList, List.mem_cons] at hmem
      simp only [search_match_entries]
      rcases hmem with heq | hmem
      · injection heq with h1 h2
        subst h1
        subst h2
        exact subset_search_match_entries r ty t path_segments mk _ (hx _)
      · exact child_mem_search_match_entries r ty hmem path_segments mk x hx _

/-- Completeness of match recording: a match at relative path `P` puts the
id of every strict prefix of the full path `path ++ P` into the match
accumulator. -/
theorem matches_at_mem_search_match {α : Type} [DecidableEq α] {t : SearchTerm}
    {v : JsonTreeValue} {P : List Segment} (h : MatchesAt t v P) :
    ∀ (path_segments : List Segment) (mk : List Segment → α) (acc : Finset α)
      (i : Nat), i < (path_segments ++ P).length →
      mk ((path_segments ++ P).take i) ∈ search_match v t path_segments mk acc := by
  induction h with
  | base_match hm =>
      intro path mk acc i hi
      simp only [search_match, if_pos hm]
      rw [List.append_nil] at hi ⊢
      exact (mem_update_matches path mk acc _).2 (Or.inr ⟨i, hi, rfl⟩)
  | key_match hmem hm =>
      intro path mk acc i hi
      simp only [search_match]
      exact key_match_mem_search_match_entries _ hmem hm path mk acc i hi
  | child_match hmem hsub ih =>
      intro path mk acc i hi
      simp only [search_match]
      rw [List.append_cons] at hi ⊢
      exact child_mem_search_match_entries _ _ hmem path mk _
        (fun acc2 => ih (path ++ [_]) mk acc2 i hi) acc

mutual
theorem search_match_eq_or_root {α : Type} [DecidableEq α] (value : JsonTreeValue)
    (search_term : SearchTerm) (path_segments : List Segment)
    (mk : List Segment → α) (acc : Finset α) :
    search_match value search_term path_segments mk acc = acc ∨
      mk [] ∈ search_match value search_term path_segments mk acc := by
  cases value with
  | base d bt =>
      simp only [search_match]
      by_cases hm : search_term.matches d = true
      · rw [if_pos hm]
        cases hp : path_segments with
        | nil => exact Or.inl (update_matches_nil mk acc)
        | cons q qs => exact Or.inr (root_mem_update_matches mk acc (by simp [hp]))
      · rw [if_neg hm]
        exact Or.inl rfl
  | expandable es ty =>
      simp only [search_match]
      exact search_match_entries_eq_or_root es ty search_term path_segments mk acc

theorem search_match_entries_eq_or_root {α : Type} [DecidableEq α] (entries : Entries)
    (ty : ExpandableType) (search_term : SearchTerm) (path_segments : List Segment)
    (mk : List Segment → α) (acc : Finset α) :
    search_match_entries entries ty search_term path_segments mk acc = acc ∨
      mk [] ∈ search_match_entries entries ty search_term path_segments mk acc := by
  cases entries with
  | nil => exact Or.inl rfl
  | cons p v r =>
      simp only [search_match_entries]
      by_cases hc : ty = ExpandableType.object ∧
          search_term.matches (Segment.display p) = true
      · rw [if_pos hc]
        refine Or.inr (subset_search_match_entries r ty search_term path_segments mk _
          (subset_search_match v search_term (path_segments ++ [p]) mk _
            (root_mem_update_matches mk acc (by simp))))
      · rw [if_neg hc]
        rcases search_match_eq_or_root v search_term (path_segments ++ [p]) mk acc with
          h1 | h1
        · rw [h1]
          rcases search_match_entries_eq_or_root r ty search_term path_segments mk acc with
            h2 | h2
          · exact Or.inl h2
          · exact Or.inr h2
        · exact Or.inr (subset_search_match_entries r ty search_term path_segments mk _ h1)
end


theorem hasNodeAt_nil_iff {v w : JsonTreeValue} : HasNodeAt v [] w ↔ w = v := by
  constructor
  · intro h
    cases h
    rfl
  · intro h
    exact h ▸ HasNodeAt.here v

theorem hasNodeAt_cons_iff {es : Entries} {ty : ExpandableType} {prop : Segment}
    {P : List Segment} {w : JsonTreeValue} :
    HasNodeAt (.expandable es ty) (prop :: P) w ↔
      ∃ child, (prop, child) ∈ Entries.toList es ∧ HasNodeAt child P w := by
  constructor
  · intro h
    cases h with
    | there hmem h => exact ⟨_, hmem, h⟩
  · rintro ⟨c, hm, h⟩
    exact HasNodeAt.there hm h

theorem hasNodeAt_base {d : List Char} {bt : BaseValueType} {s : Segment}
    {P : List Segment} {w : JsonTreeValue} : ¬ HasNodeAt (.base d bt) (s :: P) w := by
  intro h
  cases h

mutual
theorem mem_search_reset {α : Type} [DecidableEq α] (value : JsonTreeValue)
    (path_segments : List Segment) (mk : List Segment → α) (acc : Finset α) (x : α) :
    x ∈ search_reset value path_segments mk acc ↔
      x ∈ acc ∨ ∃ Q ∈ container_paths value path_segments, x = mk Q := by
  cases value with
  | base d bt => simp [search_reset, container_paths]
  | expandable es ty =>
      simp only [search_reset, container_paths]
      exact mem_search_reset_entries es path_segments mk acc x

theorem mem_search_reset_entries {α : Type} [DecidableEq α] (entries : Entries)
    (path_segments : List Segment) (mk : List Segment → α) (acc : Finset α) (x : α) :
    x ∈ search_reset_entries entries path_segments mk acc ↔
      x ∈ acc ∨ ∃ Q ∈ container_paths_entries entries path_segments, x = mk Q := by
  cases entries with
  | nil => simp [search_reset_entries, container_paths_entries]
  | cons p v r =>
      simp only [search_reset_entries, container_paths_entries]
      rw [mem_search_reset_entries r, mem_search_reset v]
      by_cases hexp : JsonTreeValue.is_expandable v = true
      · simp only [hexp, if_true, Finset.mem_insert, List.mem_append,
          List.mem_singleton, or_and_right, exists_or, exists_eq_left]
        itauto
      · simp only [hexp, if_false, Bool.false_eq_true, List.mem_append,
          List.not_mem_nil, false_and, exists_false, false_or, or_and_right,
          exists_or]
        itauto
end

mutual
theorem mem_container_paths (value : JsonTreeValue) (pre Q : List Segment) :
    Q ∈ container_paths value pre ↔
      ∃ suf w, Q = pre ++ suf ∧ suf ≠ [] ∧ HasNodeAt value suf w ∧
        w.is_expandable = true := by
  cases value with
  | base d bt =>
      simp only [container_paths, List.not_mem_nil, false_iff]
      rintro ⟨suf, w, hQ, hne, hnode, hexp⟩
      cases suf with
      | nil => exact hne rfl
      | cons s P => exact hasNodeAt_base hnode
  | expandable es ty =>
      simp only [container_paths]
      rw [mem_container_paths_entries es pre Q]
      constructor
      · rintro ⟨prop, child, P, w, hmem, hQ, hnode, hexp⟩
        exact ⟨prop :: P, w, hQ, List.cons_ne_nil prop P,
          HasNodeAt.there hmem hnode, hexp⟩
      · rintro ⟨suf, w, hQ, hne, hnode, hexp⟩
        cases suf with
        | nil => exact absurd rfl hne
        | cons s P =>
            obtain ⟨child, hmem, hnode2⟩ := hasNodeAt_cons_iff.1 hnode
            exact ⟨s, child, P, w, hmem, hQ, hnode2, hexp⟩

theorem mem_container_paths_entries (entries : Entries) (pre Q : List Segment) :
    Q ∈ container_paths_entries entries pre ↔
      ∃ prop child P w, (prop, child) ∈ Entries.toList entries ∧
        Q = pre ++ prop :: P ∧ HasNodeAt child P w ∧ w.is_expandable = true := by
  cases entries with
  | nil => simp [container_paths_entries, Entries.toList]
  | cons p v r =>
      simp only [container_paths_entries, List.mem_append, Entries.toList,
        List.mem_cons, mem_container_paths v, mem_container_paths_entries r]
      constructor
      · rintro (h1 | ⟨suf, w, hQ, hne, hnode, hexp⟩ | h3)
        · have hv : JsonTreeValue.is_expandable v = true := by
            by_contra hc
            rw [if_neg hc] at h1
            exact List.not_mem_nil Q h1
          rw [if_pos hv, List.mem_singleton] at h1
          exact ⟨p, v, [], v, Or.inl rfl, by simpa using h1, HasNodeAt.here v, hv⟩
        · refine ⟨p, v, suf, w, Or.inl rfl, ?_, hnode, hexp⟩
          rw [List.append_cons]
          exact hQ
        · obtain ⟨prop, child, P, w, hmem, hQ, hnode, hexp⟩ := h3
          exact ⟨prop, child, P, w, Or.inr hmem, hQ, hnode, hexp⟩
      · rintro ⟨prop, child, P, w, hmem, hQ, hnode, hexp⟩
        rcases hmem with heq | hmem
        · injection heq with h1 h2
          subst h1
          subst h2
          cases P with
          | nil =>
              rw [hasNodeAt_nil_iff] at hnode
              subst hnode
              refine Or.inl ?_
              rw [if_pos hexp, List.mem_singleton]
              simpa using hQ
          | cons s P2 =>
              refine Or.inr (Or.inl ⟨s :: P2, w, ?_, List.cons_ne_nil s P2, hnode, hexp⟩)
              rw [List.append_cons] at hQ
              exact hQ
        · exact Or.inr (Or.inr ⟨prop, child, P, w, hmem, hQ, hnode, hexp⟩)
end

theorem foldl_insert_image {α β γ : Type} [DecidableEq α] [DecidableEq γ]
    (f : γ → α) (g : β → γ) (l : List β) (s : Finset γ) :
    l.foldl (fun acc i => insert (f (g i)) acc) (Finset.image f s) =
      Finset.image f (l.foldl (fun acc i => insert (g i) acc) s) := by
  induction l generalizing s with
  | nil => rfl
  | cons a l ih => rw [List.foldl_cons, List.foldl_cons, ← Finset.image_insert, ih]

/-- `update_matches` commutes with applying `make_persistent_id` after the
fact: running it with an arbitrary id function is the image under that
function of running it with the identity. -/
theorem update_matches_image {α : Type} [DecidableEq α] (path_segments : List Segment)
    (mk : List Segment → α) (s : Finset (List Segment)) :
    update_matches path_segments mk (Finset.image mk s) =
      Finset.image mk (update_matches path_segments (fun p => p) s) := by
  simp only [update_matches]
  exact foldl_insert_image mk (fun i => path_segments.take i) _ s

mutual
/-- The match traversal with an arbitrary id function is the image under
that function of the traversal that uses paths themselves as ids. -/
theorem search_match_image {α : Type} [DecidableEq α] (value : JsonTreeValue)
    (search_term : SearchTerm) (path_segments : List Segment)
    (mk : List Segment → α) (s : Finset (List Segment)) :
    search_match value search_term path_segments mk (Finset.image mk s) =
      Finset.image mk (search_match value search_term path_segments (fun p => p) s) := by
  cases value with
  | base d bt =>
      simp only [search_match]
      by_cases hm : search_term.matches d = true
      · rw [if_pos hm, if_pos hm, update_matches_image]
      · rw [if_neg hm, if_neg hm]
  | expandable es ty =>
      simp only [search_match]
      exact search_match_entries_image es ty search_term path_segments mk s

theorem search_match_entries_image {α : Type} [DecidableEq α] (entries : Entries)
    (ty : ExpandableType) (search_term : SearchTerm) (path_segments : List Segment)
    (mk : List Segment → α) (s : Finset (List Segment)) :
    search_match_entries entries ty search_term path_segments mk (Finset.image mk s) =
      Finset.image mk
        (search_match_entries entries ty search_term path_segments (fun p => p) s) := by
  cases entries with
  | nil => rfl
  | cons p v r =>
      simp only [search_match_entries]
      by_cases hc : ty = ExpandableType.object ∧
          search_term.matches (Segment.display p) = true
      · rw [if_pos hc, if_pos hc, update_matches_image,
          search_match_image v search_term (path_segments ++ [p]) mk,
          search_match_entries_image r ty search_term path_segments mk]
      · rw [if_neg hc, if_neg hc,
          search_match_image v search_term (path_segments ++ [p]) mk,
          search_match_entries_image r ty search_term path_segments mk]
end



mutual
/-- On a tree whose containers are all arrays, the match traversal behaves
exactly as if the key-match test did not exist. -/
theorem only_arrays_search_match {α : Type} [DecidableEq α] (value : JsonTreeValue)
    (h : only_arrays value = true) (search_term : SearchTerm)
    (path_segments : List Segment) (mk : List Segment → α) (acc : Finset α) :
    search_match value search_term path_segments mk acc =
      search_ignoring_keys value search_term path_segments mk acc := by
  cases value with
  | base d bt => rfl
  | expandable es ty =>
      cases ty with
      | array =>
          simp only [search_match, search_ignoring_keys]
          exact only_arrays_search_match_entries es (by simpa [only_arrays] using h)
            search_term path_segments mk acc
      | object => simp [only_arrays] at h

theorem only_arrays_search_match_entries {α : Type} [DecidableEq α] (entries : Entries)
    (h : only_arrays_entries entries = true) (search_term : SearchTerm)
    (path_segments : List Segment) (mk : List Segment → α) (acc : Finset α) :
    search_match_entries entries ExpandableType.array search_term path_segments mk acc =
      search_ignoring_keys_entries entries search_term path_segments mk acc := by
  cases entries with
  | nil => rfl
  | cons p v r =>
      simp only [only_arrays_entries, Bool.and_eq_true] at h
      simp only [search_match_entries, search_ignoring_keys_entries]
      rw [if_neg (by rintro ⟨hk, _⟩; exact ExpandableType.noConfusion hk)]
      rw [only_arrays_search_match v h.1 search_term (path_segments ++ [p]) mk acc]
      exact only_arrays_search_match_entries r h.2 search_term path_segments mk _
end

theorem char_toNat_ofNat (n : Nat) (h : n.isValidChar) : (Char.ofNat n).toNat = n := by
  rw [Char.ofNat, dif_pos h]
  rfl

theorem char_toLower_toLower (c : Char) : c.toLower.toLower = c.toLower := by
  simp only [Char.toLower]
  by_cases h : c.toNat ≥ 65 ∧ c.toNat ≤ 90
  · rw [if_pos h]
    have hv : (c.toNat + 32).isValidChar := Or.inl (by omega)
    have ht : (Char.ofNat (c.toNat + 32)).toNat = c.toNat + 32 := char_toNat_ofNat _ hv
    rw [if_neg (by rw [ht]; omega)]
  · rw [if_neg h, if_neg h]

theorem char_toLower_toUpper (c : Char) : c.toUpper.toLower = c.toLower := by
  simp only [Char.toLower, Char.toUpper]
  by_cases h : c.toNat ≥ 97 ∧ c.toNat ≤ 122
  · rw [if_pos h]
    have hv : (c.toNat - 32).isValidChar := Or.inl (by omega)
    have ht : (Char.ofNat (c.toNat - 32)).toNat = c.toNat - 32 := char_toNat_ofNat _ hv
    rw [if_pos (by rw [ht]; omega)]
    rw [if_neg (by omega)]
    rw [ht]
    have h2 : c.toNat - 32 + 32 = c.toNat := by omega
    rw [h2, Char.ofNat_toNat]
  · rw [if_neg h]

/-- ASCII-lowercasing an ASCII-uppercased string gives the same result as
lowercasing the original. -/
theorem toAsciiLowercase_toAsciiUppercase (s : List Char) :
    toAsciiLowercase (toAsciiUppercase s) = toAsciiLowercase s := by
  simp only [toAsciiLowercase, toAsciiUppercase, List.map_map]
  exact List.map_congr_left fun c _ => char_toLower_toUpper c

/-- ASCII-lowercasing is idempotent. -/
theorem toAsciiLowercase_toAsciiLowercase (s : List Char) :
    toAsciiLowercase (toAsciiLowercase s) = toAsciiLowercase s := by
  simp only [toAsciiLowercase, List.map_map]
  exact List.map_congr_left fun c _ => char_toLower_toLower c

theorem is_valid_of_ne_nil {s : List Char} (h : s ≠ []) :
    SearchTerm.is_valid s = true := by
  cases s with
  | nil => exact absurd rfl h
  | cons a l => rfl

/-- C6: `SearchTerm::parse` fails exactly on the empty string, and on any
non-empty string returns the term holding the ASCII-lowercased input, with
no other validation. -/
theorem parse_fails_iff_empty :
    (∀ s : List Char, SearchTerm.parse s = none ↔ s = []) ∧
    ∀ s : List Char, s ≠ [] → SearchTerm.parse s = some ⟨toAsciiLowercase s⟩ := by
  constructor
  · intro s
    cases s with
    | nil => simp [SearchTerm.parse, SearchTerm.is_valid]
    | cons a l => simp [SearchTerm.parse, SearchTerm.is_valid]
  · intro s h
    rw [SearchTerm.parse, if_pos (is_valid_of_ne_nil h)]

/-- Witness for C6 at the concrete non-empty input `"Ab"`. -/
theorem parse_fails_iff_empty_witness :
    SearchTerm.parse (['A', 'b'] : List Char) =
      some ⟨toAsciiLowercase ['A', 'b']⟩ :=
  parse_fails_iff_empty.2 ['A', 'b'] (by decide)

/-- C7: matching is ASCII-case-insensitive — parsing `s` and matching `t`
agrees with parsing the ASCII-uppercased `s` and matching the
ASCII-lowercased `t`, for every non-empty `s`. -/
theorem matches_ascii_case_insensitive (s t : List Char) (h : s ≠ []) :
    Option.map (fun st => st.matches t) ( SearchTerm.parse s) =
      Option.map (fun st => st.matches (toAsciiLowercase t))
        ( SearchTerm.parse (toAsciiUppercase s)) := by
  have h2 : toAsciiUppercase s ≠ [] := by
    cases s with
    | nil => exact absurd rfl h
    | cons a l => simp [toAsciiUppercase]
  rw [SearchTerm.parse, if_pos (is_valid_of_ne_nil h)]
  rw [SearchTerm.parse, if_pos (is_valid_of_ne_nil h2)]
  simp only [Option.map_some']
  simp only [SearchTerm.matches, toAsciiLowercase_toAsciiUppercase,
    toAsciiLowercase_toAsciiLowercase]

/-- Witness for C7 at the concrete inputs `s = "A"`, `t = "xA"`. -/
theorem matches_ascii_case_insensitive_witness :
    Option.map (fun st => st.matches (['x', 'A'] : List Char))
        ( SearchTerm.parse (['A'] : List Char)) =
      Option.map (fun st => st.matches (toAsciiLowercase ['x', 'A']))
        ( SearchTerm.parse (toAsciiUppercase ['A'])) :=
  matches_ascii_case_insensitive ['A'] ['x', 'A'] (by decide)


/-- C1 counterexample: in `{"a": "x", "b": {"c": "x"}}` with term `"x"`
and the (injective) identity id function, the Base leaf at path `["a"]`
matches, yet the returned match-id set does not contain the id of the
full path `["a"]` — refuting the claim that prefixes up to length
`len(P)` inclusive are inserted. -/
theorem match_full_path_id_missing_cex :
    MatchesAt ⟨['x']⟩ vTwoLeaves [Segment.key ['a']] ∧
    ([Segment.key ['a']] : List Segment) ∉
      (find_matching_paths_in ⟨['x']⟩ vTwoLeaves true (fun p => p) ∅).1 := by
  constructor
  · have h0 : MatchesAt ⟨['x']⟩ (JsonTreeValue.base ['x'] BaseValueType.str) [] :=
      MatchesAt.base_match (by decide)
    exact MatchesAt.child_match (by decide) h0
  · rw [find_matching_paths_in_fst]
    decide

/-- C1 (amended): when a node at path `P` matches and `abbreviate_root` is
true, the returned match-id set contains `make_persistent_id` of every
proper prefix of `P` — lengths `0` through `len(P) - 1`; the full path's
own id is not inserted. -/
theorem match_inserts_proper_prefix_ids {α : Type} [DecidableEq α]
    (value : JsonTreeValue) (t : SearchTerm) (P : List Segment)
    (mk : List Segment → α) (r : Finset α)
    (h : MatchesAt t value P) (i : Nat) (hi : i < P.length) :
    mk (P.take i) ∈ (find_matching_paths_in t value true mk r).1 := by
  rw [find_matching_paths_in_fst]
  rw [if_neg (by simp)]
  have h2 := matches_at_mem_search_match h [] mk ∅ i (by simpa using hi)
  simpa using h2

/-- Witness for the amended C1: in `{"a": "x", "b": {"c": "x"}}` the leaf
at `["b", "c"]` matches `"x"`, so the id of its length-1 prefix `["b"]`
is in the returned set. -/
theorem match_inserts_proper_prefix_ids_witness :
    ([Segment.key ['b']] : List Segment) ∈
      (find_matching_paths_in ⟨['x']⟩ vTwoLeaves true (fun p => p) ∅).1 := by
  have h0 : MatchesAt ⟨['x']⟩ (JsonTreeValue.base ['x'] BaseValueType.str) [] :=
    MatchesAt.base_match (by decide)
  have h1 : MatchesAt ⟨['x']⟩
      (objOf [(Segment.key ['c'], JsonTreeValue.base ['x'] BaseValueType.str)])
      [Segment.key ['c']] :=
    MatchesAt.child_match (by decide) h0
  have h2 : MatchesAt ⟨['x']⟩ vTwoLeaves [Segment.key ['b'], Segment.key ['c']] :=
    MatchesAt.child_match (by decide) h1
  exact match_inserts_proper_prefix_ids vTwoLeaves ⟨['x']⟩
    [Segment.key ['b'], Segment.key ['c']] (fun p => p) ∅ h2 1 (by decide)

/-- C2 counterexample: with the (injective) identity id function, the
end-to-end search for `"g"` does not contain the id of the path
`["bar", "grep"]`, one of the seven paths the claim asserts — the key
match at `["bar","grep"]` only records its proper prefixes. -/
theorem end_to_end_grep_path_id_missing_cex :
    ([Segment.key ['b', 'a', 'r'], Segment.key ['g', 'r', 'e', 'p']] : List Segment) ∉
      (find_matching_paths_in ⟨['g']⟩ vEndToEnd true (fun p => p) ∅).1 := by
  rw [find_matching_paths_in_fst]
  decide

/-- C2 (amended): on the end-to-end tree with term `"g"` and
`abbreviate_root = true`, for every injective `make_persistent_id` the
returned match-id set is exactly the image of the five paths `[]`,
`["bar"]`, `["bar","thud"]`, `["bar","thud","a/b"]`, and
`["bar","thud","a/b",2]` — five distinct identifiers. -/
theorem end_to_end_match_ids_five_paths {α : Type} [DecidableEq α]
    (mk : List Segment → α) (hinj : Function.Injective mk) :
    (find_matching_paths_in ⟨['g']⟩ vEndToEnd true mk ∅).1 =
      Finset.image mk endToEndMatchPaths ∧
    ((find_matching_paths_in ⟨['g']⟩ vEndToEnd true mk ∅).1).card = 5 := by
  have hbase : search_match vEndToEnd ⟨['g']⟩ [] (fun p => p)
      (∅ : Finset (List Segment)) = endToEndMatchPaths := by decide
  have h1 : (find_matching_paths_in ⟨['g']⟩ vEndToEnd true mk ∅).1 =
      Finset.image mk endToEndMatchPaths := by
    rw [find_matching_paths_in_fst, if_neg (by simp), ← Finset.image_empty mk,
      search_match_image, hbase]
  refine ⟨h1, ?_⟩
  rw [h1, Finset.card_image_of_injective _ hinj]
  decide

/-- Witness for the amended C2 at the identity id function. -/
theorem end_to_end_match_ids_five_paths_witness :
    (find_matching_paths_in ⟨['g']⟩ vEndToEnd true (fun p : List Segment => p) ∅).1 =
      Finset.image (fun p => p) endToEndMatchPaths ∧
    ((find_matching_paths_in ⟨['g']⟩ vEndToEnd true
        (fun p : List Segment => p) ∅).1).card = 5 :=
  end_to_end_match_ids_five_paths (fun p => p) (fun _ _ h => h)

/-- C3: the tie-break — with `abbreviate_root` false and a singleton
accumulated match set the result is cleared, with `abbreviate_root` true
the accumulated set is returned unchanged; on `{"foo": 1, "bar": 2}` with
term `"foo"` this yields `∅` and the singleton root id respectively. -/
theorem tie_break_single_match_suppression :
    (∀ (α : Type) [_inst : DecidableEq α] (t : SearchTerm) (v : JsonTreeValue)
        (mk : List Segment → α) (r : Finset α),
        ((search_impl v t [] mk ((∅ : Finset α), r)).1.card = 1 →
          (find_matching_paths_in t v false mk r).1 = ∅) ∧
        (find_matching_paths_in t v true mk r).1 = (search_impl v t [] mk (∅, r)).1) ∧
    (find_matching_paths_in ⟨['f', 'o', 'o']⟩ vFooBar false (fun p => p) ∅).1 = ∅ ∧
    (find_matching_paths_in ⟨['f', 'o', 'o']⟩ vFooBar true (fun p => p) ∅).1 =
      {([] : List Segment)} := by
  refine ⟨?_, ?_, ?_⟩
  · intro α _inst t v mk r
    constructor
    · intro hcard
      have hcard2 : (search_match v t [] mk (∅ : Finset α)).card = 1 := by
        rw [search_impl_eq_split] at hcard
        exact hcard
      rw [find_matching_paths_in_fst, if_pos ⟨rfl, hcard2⟩]
    · rw [find_matching_paths_in_fst, if_neg (by simp), search_impl_eq_split]
  · rw [find_matching_paths_in_fst]
    decide
  · rw [find_matching_paths_in_fst]
    decide

/-- Witness for C3: the singleton case concretely fires on
`{"foo": 1, "bar": 2}` with term `"foo"`. -/
theorem tie_break_single_match_suppression_witness :
    (find_matching_paths_in ⟨['f', 'o', 'o']⟩ vFooBar false
        (fun p : List Segment => p) ∅).1 = ∅ :=
  (tie_break_single_match_suppression.1 (List Segment) ⟨['f', 'o', 'o']⟩ vFooBar
      (fun p => p) ∅).1 (by decide)

/-- C4: array index segments never register matches by themselves — on a
tree whose containers are all arrays the traversal coincides with one
that has no key-match test at all; concretely, term `"2"` matches the
display text of index 2 yet `["x","y","z"]` yields no match ids, while a
display value (`"z2"`) or nested object key (`"k2"`) containing `2` does
register a match. -/
theorem array_indices_never_match :
    (∀ (α : Type) [_inst : DecidableEq α] (v : JsonTreeValue) (t : SearchTerm)
        (path_segments : List Segment) (mk : List Segment → α) (acc : Finset α),
        only_arrays v = true →
        search_match v t path_segments mk acc =
          search_ignoring_keys v t path_segments mk acc) ∧
    (SearchTerm.mk ['2']).matches (Segment.display (Segment.index 2)) = true ∧
    (find_matching_paths_in ⟨['2']⟩ vArrayXYZ true (fun p => p) ∅).1 = ∅ ∧
    (find_matching_paths_in ⟨['2']⟩ vArrayXYZ2 true (fun p => p) ∅).1 ≠ ∅ ∧
    (find_matching_paths_in ⟨['2']⟩ vArrayNestedKey true (fun p => p) ∅).1 ≠ ∅ := by
  refine ⟨?_, by decide, ?_, ?_, ?_⟩
  · intro α _inst v t path_segments mk acc h
    exact only_arrays_search_match v h t path_segments mk acc
  · rw [find_matching_paths_in_fst]
    decide
  · rw [find_matching_paths_in_fst]
    decide
  · rw [find_matching_paths_in_fst]
    decide

/-- Witness for C4's universal part at the all-array tree `["x","y","z"]`. -/
theorem array_indices_never_match_witness :
    search_match vArrayXYZ ⟨['2']⟩ [] (fun p : List Segment => p) ∅ =
      search_ignoring_keys vArrayXYZ ⟨['2']⟩ [] (fun p => p) ∅ :=
  array_indices_never_match.1 (List Segment) vArrayXYZ ⟨['2']⟩ [] (fun p => p) ∅
    (by decide)

/-- C5: after `find_matching_paths_in`, the reset set has gained exactly
the ids of the non-empty paths addressing Expandable nodes (and nothing
for leaf paths); concretely `{"a": [1,2,{"b":3}]}` gains the ids of
`["a"]` and `["a", 2]`. -/
theorem reset_ids_exactly_container_paths :
    (∀ (α : Type) [_inst : DecidableEq α] (t : SearchTerm) (v : JsonTreeValue)
        (ab : Bool) (mk : List Segment → α) (r : Finset α) (x : α),
        x ∈ (find_matching_paths_in t v ab mk r).2 ↔
          x ∈ r ∨ ∃ P w, P ≠ [] ∧ HasNodeAt v P w ∧ w.is_expandable = true ∧
            x = mk P) ∧
    (find_matching_paths_in ⟨['z']⟩ vResetDemo true (fun p => p) ∅).2 =
      {[Segment.key ['a']], [Segment.key ['a'], Segment.index 2]} := by
  constructor
  · intro α _inst t v ab mk r x
    rw [find_matching_paths_in_snd, mem_search_reset]
    constructor
    · rintro (h | ⟨Q, hQ, rfl⟩)
      · exact Or.inl h
      · obtain ⟨suf, w, hQ2, hne, hnode, hexp⟩ := (mem_container_paths v [] Q).1 hQ
        rw [List.nil_append] at hQ2
        exact Or.inr ⟨suf, w, hne, hnode, hexp, by rw [hQ2]⟩
    · rintro (h | ⟨P, w, hne, hnode, hexp, rfl⟩)
      · exact Or.inl h
      · refine Or.inr ⟨P, ?_, rfl⟩
        rw [mem_container_paths]
        exact ⟨P, w, by rw [List.nil_append], hne, hnode, hexp⟩
  · rw [find_matching_paths_in_snd]
    decide

/-- C8: the final reset set does not depend on the search term — any two
terms leave `reset_path_ids` identical, for the same tree, flag, id
function and initial set. -/
theorem reset_ids_independent_of_search_term {α : Type} [DecidableEq α]
    (v : JsonTreeValue) (t1 t2 : SearchTerm) (ab : Bool)
    (mk : List Segment → α) (r : Finset α) :
    (find_matching_paths_in t1 v ab mk r).2 =
      (find_matching_paths_in t2 v ab mk r).2 := by
  rw [find_matching_paths_in_snd, find_matching_paths_in_snd]

/-- C9: whenever the returned match-id set is non-empty it contains the
root identifier `make_persistent_id []`, since every match insertion
starts with the length-0 prefix. -/
theorem nonempty_match_ids_contain_root {α : Type} [DecidableEq α]
    (t : SearchTerm) (v : JsonTreeValue) (ab : Bool) (mk : List Segment → α)
    (r : Finset α) (h : (find_matching_paths_in t v ab mk r).1 ≠ ∅) :
    mk [] ∈ (find_matching_paths_in t v ab mk r).1 := by
  rw [find_matching_paths_in_fst] at h ⊢
  by_cases hc : ab = false ∧ (search_match v t [] mk (∅ : Finset α)).card = 1
  · rw [if_pos hc] at h
    exact absurd rfl h
  · rw [if_neg hc] at h ⊢
    rcases search_match_eq_or_root v t [] mk ∅ with h1 | h1
    · rw [h1] at h
      exact absurd rfl h
    · exact h1

/-- Witness for C9 on `{"foo": 1, "bar": 2}` with term `"foo"` and
`abbreviate_root = true`: the result is non-empty and contains `[]`. -/
theorem nonempty_match_ids_contain_root_witness :
    ([] : List Segment) ∈
      (find_matching_paths_in ⟨['f', 'o', 'o']⟩ vFooBar true
        (fun p : List Segment => p) ∅).1 :=
  nonempty_match_ids_contain_root ⟨['f', 'o', 'o']⟩ vFooBar true (fun p => p) ∅
    (by rw [find_matching_paths_in_fst]; decide)

/-- C10: when the root value is a Base leaf, `find_matching_paths_in`
returns the empty match set and leaves the reset set untouched, for every
term and both `abbreviate_root` values — match recording at the empty
path inserts nothing. -/
theorem root_base_leaf_returns_empty {α : Type} [DecidableEq α]
    (d : List Char) (bt : BaseValueType) (t : SearchTerm) (ab : Bool)
    (mk : List Segment → α) (r : Finset α) :
    find_matching_paths_in t (.base d bt) ab mk r = (∅, r) := by
  have h1 : search_match (JsonTreeValue.base d bt) t [] mk (∅ : Finset α) = ∅ := by
    simp only [search_match]
    split
    · exact update_matches_nil mk ∅
    · rfl
  refine Prod.ext ?_ ?_
  · rw [find_matching_paths_in_fst, h1]
    simp
  · rw [find_matching_paths_in_snd]
    rfl

end EguiJsonTree
